import Mathlib

/-!
Verification of the nfs-subdir-external-provisioner core logic
(cmd/nfs-subdir-external-provisioner/provisioner.go).

The Go code is shallowly embedded: pure helpers become Lean functions on
`String` / `List Char`; the filesystem effects of `Provision` and `Delete`
are modelled by explicit state passing over a small directory-entry list.
Machine integers are modelled as `Int`/`Nat` with the explicit bounds that
the Go standard library checks (`strconv.ParseInt` with bit size 64).
All definitions are executable so that concrete runs can be checked by
`decide`.
-/

namespace NfsProv

/-- The brace characters, defined by code point. -/
def lbrace : Char := Char.ofNat 123

/-- The closing brace character, defined by code point. -/
def rbrace : Char := Char.ofNat 125

/-! ## Association-list model of Go string maps

Go `map[string]string` lookups: a missing key yields the zero value `""`.
`lookupOpt` models the two-result form `v, ok := m[k]`. -/

/-- Lookup in a string map, returning `none` when the key is absent. -/
def lookupOpt (m : List (String × String)) (k : String) : Option String :=
  (m.find? (fun kv => kv.1 == k)).map (·.2)

/-- Lookup in a string map; a missing key yields the empty string,
as for Go map indexing. -/
def lookupD (m : List (String × String)) (k : String) : String :=
  (lookupOpt m k).getD ""

/-! ## strconv: ParseInt / Atoi / ParseBool

`strconv.ParseInt(s, base, 64)`: optional sign, then digits of the given
base accumulated with a 2^64 overflow check, then the signed-range check
for bit size 64.  Any error (syntax or range) makes the Go callers of this
repository return an error, so the model collapses errors to `none`. -/

/-- Value of one digit character under the given base, as in Go strconv:
0-9, then a-z and A-Z starting at 10; a digit not below the base is a
syntax error. -/
def digitVal (base : Nat) (c : Char) : Option Nat :=
  let v : Option Nat :=
    if '0' ≤ c ∧ c ≤ '9' then some (c.toNat - '0'.toNat)
    else if 'a' ≤ c ∧ c ≤ 'z' then some (c.toNat - 'a'.toNat + 10)
    else if 'A' ≤ c ∧ c ≤ 'Z' then some (c.toNat - 'A'.toNat + 10)
    else none
  match v with
  | some d => if d < base then some d else none
  | none => none

/-- Digit-accumulation loop of `strconv.ParseUint` (bit size 64): fails on
a bad digit or when the value would exceed the unsigned 64-bit range. -/
def parseDigits (base : Nat) : List Char → Nat → Option Nat
  | [], acc => some acc
  | c :: rest, acc =>
    match digitVal base c with
    | none => none
    | some d =>
      let acc2 := acc * base + d
      if acc2 < 2 ^ 64 then parseDigits base rest acc2 else none

/-- Models `strconv.ParseInt(s, base, 64)`: optional `+`/`-` sign, a nonempty
digit string, and the signed 64-bit range check.  `strconv.Atoi` is this
with base 10. -/
def parseIntGo (base : Nat) (s : String) : Option Int :=
  match s.data with
  | [] => none
  | c :: rest =>
    let p : Bool × List Char :=
      if c = '+' then (false, rest)
      else if c = '-' then (true, rest)
      else (false, c :: rest)
    match p.2 with
    | [] => none
    | ds =>
      match parseDigits base ds 0 with
      | none => none
      | some un =>
        if p.1 then
          if un > 2 ^ 63 then none else some (-(un : Int))
        else
          if un ≥ 2 ^ 63 then none else some (un : Int)

/-- Models `strconv.ParseBool`: exactly the listed string forms parse. -/
def parseBool (s : String) : Option Bool :=
  if s = "1" ∨ s = "t" ∨ s = "T" ∨ s = "true" ∨ s = "TRUE" ∨ s = "True" then
    some true
  else if s = "0" ∨ s = "f" ∨ s = "F" ∨ s = "false" ∨ s = "FALSE" ∨ s = "False" then
    some false
  else none

/-! ## strings.Replace / strings.ReplaceAll

Modelled on `List Char`.  `strings.Replace(s, old, new, 1)` replaces the
first occurrence; `strings.ReplaceAll` replaces every non-overlapping
occurrence from the left.  An empty `old` makes Go insert `new` at the
start and after every character. -/

/-- Models `strings.Replace(s, old, new, 1)` on character lists. -/
def replaceOnceChars (s pat rep : List Char) : List Char :=
  if pat = [] then rep ++ s
  else
    match s with
    | [] => []
    | c :: rest =>
      if pat.isPrefixOf (c :: rest) then rep ++ (c :: rest).drop pat.length
      else c :: replaceOnceChars rest pat rep

/-- Replacement loop of `strings.ReplaceAll` for a nonempty pattern,
structurally recursive on an explicit fuel so that concrete runs reduce in
the kernel; `replaceAllChars` supplies sufficient fuel. -/
def replaceAllAux : Nat → List Char → List Char → List Char → List Char
  | 0, s, _, _ => s
  | fuel + 1, s, pat, rep =>
    match s with
    | [] => []
    | c :: rest =>
      if pat.isPrefixOf (c :: rest) then
        rep ++ replaceAllAux fuel ((c :: rest).drop pat.length) pat rep
      else c :: replaceAllAux fuel rest pat rep

/-- Models `strings.ReplaceAll(s, old, new)` on character lists. -/
def replaceAllChars (s pat rep : List Char) : List Char :=
  if pat = [] then rep ++ (s.map (fun c => c :: rep)).foldr (· ++ ·) []
  else replaceAllAux (s.length + 1) s pat rep

/-- With a nonempty pattern, `replaceAllAux` does not depend on the fuel
once the fuel exceeds the input length. -/
theorem replaceAllAux_fuel (pat rep : List Char) (hpat : pat ≠ []) :
    ∀ f1 f2 s, s.length < f1 → s.length < f2 →
      replaceAllAux f1 s pat rep = replaceAllAux f2 s pat rep := by
  intro f1
  induction f1 with
  | zero => intro f2 s h1 _; omega
  | succ f ih =>
    intro f2 s h1 h2
    match f2, s with
    | 0, s => omega
    | g + 1, [] => rfl
    | g + 1, c :: rest =>
      simp only [replaceAllAux]
      by_cases hp : pat.isPrefixOf (c :: rest)
      · rw [if_pos hp, if_pos hp]
        have hlen : ((c :: rest).drop pat.length).length < f := by
          have hple : 1 ≤ pat.length := by
            cases pat with
            | nil => exact absurd rfl hpat
            | cons a b => simp
          simp only [List.length_drop, List.length_cons] at *
          omega
        have hlen2 : ((c :: rest).drop pat.length).length < g := by
          have hple : 1 ≤ pat.length := by
            cases pat with
            | nil => exact absurd rfl hpat
            | cons a b => simp
          simp only [List.length_drop, List.length_cons] at *
          omega
        rw [ih g _ hlen hlen2]
      · rw [if_neg hp, if_neg hp]
        have hlen : rest.length < f := by simp only [List.length_cons] at h1; omega
        have hlen2 : rest.length < g := by simp only [List.length_cons] at h2; omega
        rw [ih g rest hlen hlen2]

/-- One-step unfolding of `replaceAllAux` at a successor fuel. -/
theorem replaceAllAux_one (fuel : Nat) (c : Char) (rest pat rep : List Char) :
    replaceAllAux (fuel + 1) (c :: rest) pat rep =
      if pat.isPrefixOf (c :: rest) then
        rep ++ replaceAllAux fuel ((c :: rest).drop pat.length) pat rep
      else c :: replaceAllAux fuel rest pat rep := rfl

/-- Unfolding: `replaceAllChars` on the empty string. -/
theorem replaceAll_nil (pat rep : List Char) (hpat : pat ≠ []) :
    replaceAllChars [] pat rep = [] := by
  simp only [replaceAllChars, if_neg hpat]
  rfl

/-- Unfolding: `replaceAllChars` when the pattern is a prefix. -/
theorem replaceAll_pos (s pat rep : List Char) (hpat : pat ≠ []) (hs : s ≠ [])
    (hp : pat.isPrefixOf s) :
    replaceAllChars s pat rep = rep ++ replaceAllChars (s.drop pat.length) pat rep := by
  have hple : 1 ≤ pat.length := by
    cases pat with
    | nil => exact absurd rfl hpat
    | cons a b => simp
  match s with
  | [] => exact absurd rfl hs
  | c :: rest =>
    simp only [replaceAllChars, if_neg hpat, List.length_cons]
    rw [replaceAllAux_one, if_pos hp]
    congr 1
    apply replaceAllAux_fuel pat rep hpat
    · simp only [List.length_drop, List.length_cons]
      omega
    · simp

/-- Unfolding: `replaceAllChars` when the pattern is not a prefix. -/
theorem replaceAll_neg (c : Char) (t pat rep : List Char) (hpat : pat ≠ [])
    (hp : ¬ pat.isPrefixOf (c :: t)) :
    replaceAllChars (c :: t) pat rep = c :: replaceAllChars t pat rep := by
  simp only [replaceAllChars, if_neg hpat, List.length_cons]
  rw [replaceAllAux_one, if_neg hp]

/-- String wrapper for `strings.Replace(s, old, new, 1)`. -/
def replaceOnce (s pat rep : String) : String :=
  String.mk (replaceOnceChars s.data pat.data rep.data)

/-- String wrapper for `strings.ReplaceAll`. -/
def replaceAll (s pat rep : String) : String :=
  String.mk (replaceAllChars s.data pat.data rep.data)

/-! ## filepath.Clean / filepath.Join / filepath.Base (Unix rules)

`Clean` is modelled component-wise: split on slashes, drop empty and `.`
components, resolve `..` against a stack (a rooted path drops leading
`..`), and re-join. -/

/-- Split a character list on slashes (as `strings.Split(s, "/")`):
always returns at least one (possibly empty) component. -/
def splitSlash : List Char → List (List Char)
  | [] => [[]]
  | c :: rest =>
    if c = '/' then [] :: splitSlash rest
    else
      match splitSlash rest with
      | [] => [[c]]
      | h :: t => (c :: h) :: t

/-- Join components with slashes (inverse of `splitSlash`). -/
def interSlash : List (List Char) → List Char
  | [] => []
  | [x] => x
  | x :: y :: t => x ++ '/' :: interSlash (y :: t)

/-- The `..`-resolution stack of `filepath.Clean`: a rooted path drops a
`..` that cannot backtrack, a relative path keeps it. -/
def cleanStack (rooted : Bool) (acc : List (List Char)) : List (List Char) → List (List Char)
  | [] => acc
  | c :: rest =>
    if c = ['.', '.'] then
      if acc ≠ [] ∧ acc.getLast? ≠ some ['.', '.'] then cleanStack rooted acc.dropLast rest
      else if rooted then cleanStack rooted acc rest
      else cleanStack rooted (acc ++ [c]) rest
    else cleanStack rooted (acc ++ [c]) rest

/-- Models `filepath.Clean` on character lists (Unix separator). -/
def pathCleanChars (p : List Char) : List Char :=
  if p = [] then ['.']
  else
    let rooted := p.head? = some '/'
    let comps := (splitSlash p).filter (fun c => !c.isEmpty && c != ['.'])
    let out := cleanStack (decide rooted) [] comps
    if rooted then '/' :: interSlash out
    else if out = [] then ['.']
    else interSlash out

/-- Models `filepath.Clean` on strings. -/
def pathClean (p : String) : String := String.mk (pathCleanChars p.data)

/-- Models `filepath.Join(a, b)`: join with a slash, then clean; empty elements
are skipped, and joining only empty elements yields the empty string. -/
def joinPath (a b : String) : String :=
  if a = "" then (if b = "" then "" else pathClean b)
  else pathClean (a ++ "/" ++ b)

/-- Models `filepath.Base` (Unix): strip trailing slashes, take the last
component; the empty path gives `.` and an all-slash path gives `/`. -/
def baseName (p : String) : String :=
  if p = "" then "."
  else
    let q := (p.data.reverse.dropWhile (· = '/')).reverse
    let r := (q.reverse.takeWhile (· ≠ '/')).reverse
    if r = [] then "/" else String.mk r

/-! ## The two parameter validators (provisioner.go lines 251-279) -/

/-- Models `getModeFromString`: empty input defaults to 0777; otherwise the input
is parsed base-8 (bit size 64) and must lie in [0, 0o777]. -/
def getModeFromString (mode : String) : Except String Int :=
  if mode = "" then .ok 511
  else
    match parseIntGo 8 mode with
    | none => .error ("invalid mode " ++ mode)
    | some n =>
      if n < 0 ∨ n > 511 then .error ("mode must be between 0 and 0777, got " ++ mode)
      else .ok n

/-- Models `getIdFromString`: empty input defaults to 0; otherwise the input is
parsed as a decimal integer (`strconv.Atoi`) and must lie in [0, 65535]. -/
def getIdFromString (id : String) : Except String Int :=
  if id = "" then .ok 0
  else
    match parseIntGo 10 id with
    | none => .error ("invalid id " ++ id)
    | some n =>
      if n < 0 ∨ n > 65535 then .error ("id must be between 0 and 65535, got " ++ id)
      else .ok n

/-! ## The metadata resolver (provisioner.go lines 55-77)

The compiled pattern is `\${\.PVC\.((labels|annotations)\.(.*?)|.*?)}`.
Under Go's leftmost-first matching with lazy repetition, a match starts at
a literal `${.PVC.` and extends to the first following `}`, with no
newline in between; the captured inner text selects the labels map, the
annotations map, or the flat data map.  `segsOf` performs exactly this
non-overlapping left-to-right scan, splitting a string into literal
characters and placeholder holes; `findPVCMatches` models
`pattern.FindAllStringSubmatch(str, -1)`. -/

/-- The pvcMetadata struct: flat data map plus label and annotation maps. -/
structure pvcMetadata where
  data : List (String × String)
  labels : List (String × String)
  annotations : List (String × String)

/-- The literal `${.PVC.` that starts every placeholder match. -/
def placeholderHead : List Char := ['$', lbrace, '.', 'P', 'V', 'C', '.']

/-- Scan to the first closing brace: returns the characters before it and
the characters after it, or `none` if a newline or the end of the string
comes first (the lazy `.*?` cannot cross either). -/
def scanBrace : List Char → Option (List Char × List Char)
  | [] => none
  | c :: rest =>
    if c = rbrace then some ([], rest)
    else if c = '\n' then none
    else
      match scanBrace rest with
      | some (i, a) => some (c :: i, a)
      | none => none

/-- A segment of a scanned template: a literal character or a placeholder
hole holding the text between `${.PVC.` and `}`. -/
inductive Seg where
  | lit : Char → Seg
  | hole : List Char → Seg
deriving DecidableEq

/-- The full text of a placeholder hole. -/
def holeText (inner : List Char) : List Char := placeholderHead ++ inner ++ [rbrace]

/-- Rendering a segment back to its source text. -/
def renderSeg : Seg → List Char
  | .lit c => [c]
  | .hole i => holeText i

/-- The left-to-right non-overlapping placeholder scan, on an explicit
fuel (structural recursion so concrete runs reduce in the kernel);
`segsOf` supplies sufficient fuel.  At each position: if `${.PVC.` starts
here and a `}` closes it, emit a hole and continue after the `}`;
otherwise emit the character and continue. -/
def segsOfAux : Nat → List Char → List Seg
  | 0, _ => []
  | _ + 1, [] => []
  | fuel + 1, c :: rest =>
    if placeholderHead.isPrefixOf (c :: rest) then
      match scanBrace (rest.drop 6) with
      | some (inner, after) => .hole inner :: segsOfAux fuel after
      | none => .lit c :: segsOfAux fuel rest
    else .lit c :: segsOfAux fuel rest

/-- Segmentation of a template into literals and placeholder holes. -/
def segsOf (s : List Char) : List Seg := segsOfAux (s.length + 1) s

/-- One submatch record of the compiled pattern: `full` is group 0,
`g1`-`g3` are the capture groups used by `stringParser`. -/
structure PvcMatch where
  full : List Char
  g1 : List Char
  g2 : List Char
  g3 : List Char
deriving DecidableEq

/-- Capture groups for one match, from the inner text: an inner starting
with `labels.` or `annotations.` takes the first regex alternative
(setting groups 2 and 3), anything else takes the lazy catch-all. -/
def mkMatch (inner : List Char) : PvcMatch :=
  if ("labels.".data).isPrefixOf inner then
    { full := holeText inner, g1 := inner, g2 := "labels".data, g3 := inner.drop 7 }
  else if ("annotations.".data).isPrefixOf inner then
    { full := holeText inner, g1 := inner, g2 := "annotations".data, g3 := inner.drop 12 }
  else
    { full := holeText inner, g1 := inner, g2 := [], g3 := [] }

/-- Models `pattern.FindAllStringSubmatch(str, -1)`: the matches of the scan,
in order. -/
def findPVCMatches (s : List Char) : List PvcMatch :=
  (segsOf s).filterMap (fun sg =>
    match sg with
    | .lit _ => none
    | .hole i => some (mkMatch i))

/-- The replacement value for one match: the switch on `r[2]` in
`stringParser` (labels map, annotations map, or the flat data map, with
Go's empty-string default for a missing key). -/
def matchValue (meta : pvcMetadata) (m : PvcMatch) : List Char :=
  if m.g2 = "labels".data then (lookupD meta.labels (String.mk m.g3)).data
  else if m.g2 = "annotations".data then (lookupD meta.annotations (String.mk m.g3)).data
  else (lookupD meta.data (String.mk m.g1)).data

/-- Models `stringParser`: collect all matches of the original string, then for
each match in order replace every occurrence of its full text in the
evolving string by its value. -/
def stringParser (meta : pvcMetadata) (str : String) : String :=
  String.mk ((findPVCMatches str.data).foldl
    (fun acc m => replaceAllChars acc m.full (matchValue meta m)) str.data)

/-! ## Filesystem state

The filesystem is modelled as a list of directory entries (path, mode,
owner).  `os.MkdirAll` / `os.Chmod` / `os.Chown` / `os.RemoveAll` /
`os.Rename` act on it; OS-level failures (and the intermediate parent
directories of MkdirAll) are outside the model — the spec delegates
filesystem consistency to the OS.  A subtree is everything whose path is
the given path or extends it past a slash. -/

/-- One directory entry. -/
structure DirEnt where
  path : String
  mode : Int
  uid : Int
  gid : Int
deriving DecidableEq

/-- The filesystem: a list of directory entries. -/
abbrev Fs := List DirEnt

/-- Does a path exist (models a successful `os.Stat`)? -/
def fsHas (fs : Fs) (p : String) : Bool := fs.any (fun e => e.path == p)

/-- First entry at a path. -/
def fsFind (fs : Fs) (p : String) : Option DirEnt := fs.find? (fun e => e.path == p)

/-- Models `os.MkdirAll(p, mode)`: creates the directory if absent, no-op if it
already exists. -/
def mkdirAll (fs : Fs) (p : String) (mode : Int) : Fs :=
  if fsHas fs p then fs else ⟨p, mode, 0, 0⟩ :: fs

/-- Models `os.Chmod`. -/
def chmodFs (fs : Fs) (p : String) (m : Int) : Fs :=
  fs.map (fun e => if e.path == p then { e with mode := m } else e)

/-- Models `os.Chown`. -/
def chownFs (fs : Fs) (p : String) (u g : Int) : Fs :=
  fs.map (fun e => if e.path == p then { e with uid := u, gid := g } else e)

/-- Models `os.RemoveAll(p)`: removes the directory tree rooted at `p`. -/
def removeAllFs (fs : Fs) (p : String) : Fs :=
  fs.filter (fun e => !(e.path == p || (p ++ "/").isPrefixOf e.path))

/-- Models `os.Rename(a, b)`: moves the subtree at `a` to `b`. -/
def renameFs (fs : Fs) (a b : String) : Fs :=
  fs.map (fun e =>
    if e.path == a then { e with path := b }
    else if (a ++ "/").isPrefixOf e.path then
      { e with path := b ++ e.path.drop a.length }
    else e)

/-! ## The provisioner (provisioner.go lines 42-53, 79-232) -/

/-- The fixed local mount root. -/
def mountPath : String := "/persistentvolumes"

/-- The nfsProvisioner configuration (the kube client is an external
collaborator and appears only as the lookup argument of `Delete`). -/
structure nfsProvisioner where
  server : String
  path : String
  defaultMode : Int
  defaultUid : Int
  defaultGid : Int

/-- A claim as `Provision` reads it: namespace, name, label and
annotation maps, and whether `Spec.Selector` is set. -/
structure PVC where
  namespaceName : String
  name : String
  labels : List (String × String)
  annotations : List (String × String)
  hasSelector : Bool

/-- The storage class: its string-parameter map. -/
structure StorageClass where
  parameters : List (String × String)

/-- Models `controller.ProvisionOptions`: the claim, the generated volume name,
and the storage-class parameters. -/
structure ProvisionOptions where
  pvc : PVC
  pvName : String
  storageClassParameters : List (String × String)

/-- The volume descriptor that `Provision` returns: the NFS server and
the server-visible path. -/
structure ProvisionedPV where
  server : String
  nfsPath : String
deriving DecidableEq

/-- The pvcMetadata snapshot built by `Provision`. -/
def metadataOf (opts : ProvisionOptions) : pvcMetadata :=
  { data := [("name", opts.pvc.name), ("namespace", opts.pvc.namespaceName)],
    labels := opts.pvc.labels,
    annotations := opts.pvc.annotations }

/-- The default volume directory name
`{namespace}-{claimName}-{generatedVolumeName}`. -/
def defaultPvName (opts : ProvisionOptions) : String :=
  opts.pvc.namespaceName ++ "-" ++ opts.pvc.name ++ "-" ++ opts.pvName

/-- Path computation of `Provision` (lines 95-116): the local path under
the mount root and the server-visible path under the export base path;
a `pathPattern` parameter whose expansion is non-empty replaces the
default name in both. -/
def provisionPaths (p : nfsProvisioner) (opts : ProvisionOptions) : String × String :=
  let pvName := defaultPvName opts
  let fullPath := joinPath mountPath pvName
  let path := joinPath p.path pvName
  match lookupOpt opts.storageClassParameters "pathPattern" with
  | some pat =>
    let customPath := stringParser (metadataOf opts) pat
    if customPath ≠ "" then (joinPath mountPath customPath, joinPath p.path customPath)
    else (fullPath, path)
  | none => (fullPath, path)

/-- Models `Provision` (lines 86-187): reject claims with a selector; compute
paths; parse the mode annotation (fatal on error, before any filesystem
mutation); create the directory and chmod it; parse the uid/gid
annotations (non-fatal on error, falling back to the defaults); chown;
return the volume descriptor. -/
def Provision (p : nfsProvisioner) (opts : ProvisionOptions) (fs : Fs) :
    Except String ProvisionedPV × Fs :=
  if opts.pvc.hasSelector then (.error "claim Selector is not supported", fs)
  else
    let paths := provisionPaths p opts
    let fullPath := paths.1
    let path := paths.2
    let pvcMode := lookupD opts.pvc.annotations "k8s-sigs.io/nfs-directory-mode"
    let modeRes : Except String Int :=
      if pvcMode = "" then .ok p.defaultMode else getModeFromString pvcMode
    match modeRes with
    | .error e => (.error ("invalid directoryMode " ++ pvcMode ++ ": " ++ e), fs)
    | .ok mode =>
      let fs1 := chmodFs (mkdirAll fs fullPath mode) fullPath mode
      let pvcUid := lookupD opts.pvc.annotations "k8s-sigs.io/nfs-directory-uid"
      let uid :=
        if pvcUid = "" then p.defaultUid
        else
          match getIdFromString pvcUid with
          | .ok u => u
          | .error _ => p.defaultUid
      let pvcGid := lookupD opts.pvc.annotations "k8s-sigs.io/nfs-directory-gid"
      let gid :=
        if pvcGid = "" then p.defaultGid
        else
          match getIdFromString pvcGid with
          | .ok g => g
          | .error _ => p.defaultGid
      let fs2 := chownFs fs1 fullPath uid gid
      (.ok { server := p.server, nfsPath := path }, fs2)

/-- The local path that `Delete` derives (line 192): the first occurrence
of the export base path in the volume path is replaced by the mount
root. -/
def deleteLocalPath (p : nfsProvisioner) (volPath : String) : String :=
  replaceOnce volPath p.path mountPath

/-- Models `Delete` (lines 189-232): succeed immediately if the local path does
not exist; otherwise fetch the storage class (`lookup` is the result of
`getClassForVolume`, an external call) and dispatch: `onDelete=delete`
removes the tree, `onDelete=retain` keeps it, otherwise `archiveOnDelete`
present-and-false removes the tree, an unparsable value is an error, and
present-and-true or absent archives the directory under the mount root as
`archived-` plus the base name of the volume path. -/
def Delete (p : nfsProvisioner) (lookup : Except String StorageClass)
    (fs : Fs) (volPath : String) : Except String Fs :=
  let base := baseName volPath
  let oldPath := deleteLocalPath p volPath
  if !fsHas fs oldPath then .ok fs
  else
    match lookup with
    | .error e => .error e
    | .ok sc =>
      let onDelete := lookupD sc.parameters "onDelete"
      if onDelete = "delete" then .ok (removeAllFs fs oldPath)
      else if onDelete = "retain" then .ok fs
      else
        match lookupOpt sc.parameters "archiveOnDelete" with
        | some a =>
          match parseBool a with
          | none => .error ("parsing \"" ++ a ++ "\": invalid syntax")
          | some b =>
            if !b then .ok (removeAllFs fs oldPath)
            else .ok (renameFs fs oldPath (joinPath mountPath ("archived-" ++ base)))
        | none => .ok (renameFs fs oldPath (joinPath mountPath ("archived-" ++ base)))

/-! ## Derived definitions used by the statements of the claims -/

/-- A good path component: nonempty and neither `.` nor `..`. -/
def goodComp (c : List Char) : Bool := !c.isEmpty && c != ['.'] && c != ['.', '.']

/-- A cleaned absolute path: a slash followed by a nonempty remainder all
of whose slash-separated components are good. -/
def isCleanAbs (s : String) : Bool :=
  match s.data with
  | '/' :: rest => !rest.isEmpty && (splitSlash rest).all goodComp
  | _ => false

/-- A cleaned relative path: nonempty, with all components good. -/
def isCleanRel (s : String) : Bool :=
  !s.data.isEmpty && (splitSlash s.data).all goodComp

/-- The directory-name suffix a provision call uses: the expanded
`pathPattern` when present and non-empty, the default
`{namespace}-{claimName}-{generatedVolumeName}` otherwise. -/
def effectiveSuffix (opts : ProvisionOptions) : String :=
  match lookupOpt opts.storageClassParameters "pathPattern" with
  | some pat =>
    let customPath := stringParser (metadataOf opts) pat
    if customPath ≠ "" then customPath else defaultPvName opts
  | none => defaultPvName opts

/-- Has a segment no stray dollar: a literal character is not `$`, and a
hole's inner text contains no `$`. -/
def segOk : Seg → Bool
  | .lit c => c != '$'
  | .hole i => !i.contains '$'

/-- Concatenation of a list of character lists. -/
def flatCat (L : List (List Char)) : List Char := L.foldr (fun a b => a ++ b) []

/-- Modelled from the spec (section 4.1): single-pass substitution —
the template with every placeholder occurrence replaced once, in place,
by its value (textual matching, all occurrences, non-overlapping,
left-to-right).  Used as the specification side of the refinement
comparison with `stringParser`. -/
def specSubstChars (meta : pvcMetadata) (s : List Char) : List Char :=
  flatCat ((segsOf s).map (fun sg =>
    match sg with
    | .lit c => [c]
    | .hole i => matchValue meta (mkMatch i)))

/-- Modelled from the spec: string wrapper of `specSubstChars`. -/
def specSubstitute (meta : pvcMetadata) (str : String) : String :=
  String.mk (specSubstChars meta str.data)

/-- A segment of the evolving string during the replacement fold of
`stringParser`: an original literal character, a still-unreplaced
placeholder hole, or an already-substituted value. -/
inductive RSeg where
  | lit : Char → RSeg
  | hole : List Char → RSeg
  | val : List Char → RSeg
deriving DecidableEq

/-- Rendering of a fold segment to its current text. -/
def renderR : RSeg → List Char
  | .lit c => [c]
  | .hole i => holeText i
  | .val v => v

/-- Rendering of the whole evolving string. -/
def renderRs (S : List RSeg) : List Char := flatCat (S.map renderR)

/-- Invariant on fold segments: literals are not `$`, hole inners contain
neither `$` nor the closing brace, values contain no `$`. -/
def rsegOk : RSeg → Bool
  | .lit c => c != '$'
  | .hole i => !i.contains '$' && !i.contains rbrace
  | .val v => !v.contains '$'

/-- Final rendering: every hole replaced by its value. -/
def finalR (meta : pvcMetadata) : RSeg → List Char
  | .lit c => [c]
  | .hole i => matchValue meta (mkMatch i)
  | .val v => v

end NfsProv

open NfsProv

/-- Claim C6: the mode parser maps the empty string to 0777; a non-empty
input is parsed as a base-8 integer and accepted exactly when the parse
succeeds and the value lies in [0, 0o777]; out-of-range input such as
"1000" and unparsable input such as "abc" are rejected with an error. -/
theorem c6_mode_validator :
    getModeFromString "" = .ok 511 ∧
    (∀ s n, s ≠ "" → parseIntGo 8 s = some n → 0 ≤ n → n ≤ 511 →
      getModeFromString s = .ok n) ∧
    (∀ s n, s ≠ "" → getModeFromString s = .ok n →
      parseIntGo 8 s = some n ∧ 0 ≤ n ∧ n ≤ 511) ∧
    (∃ e, getModeFromString "1000" = .error e) ∧
    (∃ e, getModeFromString "abc" = .error e) := by
  refine ⟨rfl, ?_, ?_,
    ⟨"mode must be between 0 and 0777, got 1000", rfl⟩,
    ⟨"invalid mode abc", rfl⟩⟩
  · intro s n hs hp h0 h1
    simp only [getModeFromString, if_neg hs, hp]
    rw [if_neg]
    push_neg
    exact ⟨by omega, by omega⟩
  · intro s n hs hok
    simp only [getModeFromString, if_neg hs] at hok
    split at hok
    · exact absurd hok (by simp)
    · rename_i m hp
      split at hok
      · exact absurd hok (by simp)
      · rename_i hr
        push_neg at hr
        cases hok
        exact ⟨hp, by omega, by omega⟩

/-- Witness for C6 at a concrete in-range input: "0755" parses to 493. -/
theorem c6_mode_validator_witness : getModeFromString "0755" = .ok 493 :=
  c6_mode_validator.2.1 "0755" 493 (by decide) (by decide) (by decide) (by decide)

/-- Claim C7: the id parser (used for both uid and gid) maps the empty
string to 0; a non-empty input is parsed as a decimal integer and accepted
exactly when the parse succeeds and the value lies in [0, 65535]; "70000"
and "-1" are rejected with an error. -/
theorem c7_id_validator :
    getIdFromString "" = .ok 0 ∧
    (∀ s n, s ≠ "" → parseIntGo 10 s = some n → 0 ≤ n → n ≤ 65535 →
      getIdFromString s = .ok n) ∧
    (∀ s n, s ≠ "" → getIdFromString s = .ok n →
      parseIntGo 10 s = some n ∧ 0 ≤ n ∧ n ≤ 65535) ∧
    (∃ e, getIdFromString "70000" = .error e) ∧
    (∃ e, getIdFromString "-1" = .error e) := by
  refine ⟨rfl, ?_, ?_,
    ⟨"id must be between 0 and 65535, got 70000", rfl⟩,
    ⟨"id must be between 0 and 65535, got -1", rfl⟩⟩
  · intro s n hs hp h0 h1
    simp only [getIdFromString, if_neg hs, hp]
    rw [if_neg]
    push_neg
    exact ⟨by omega, by omega⟩
  · intro s n hs hok
    simp only [getIdFromString, if_neg hs] at hok
    split at hok
    · exact absurd hok (by simp)
    · rename_i m hp
      split at hok
      · exact absurd hok (by simp)
      · rename_i hr
        push_neg at hr
        cases hok
        exact ⟨hp, by omega, by omega⟩

/-- Witness for C7 at a concrete in-range input: "1000" parses to 1000. -/
theorem c7_id_validator_witness : getIdFromString "1000" = .ok 1000 :=
  c7_id_validator.2.1 "1000" 1000 (by decide) (by decide) (by decide) (by decide)

/-! ## C8: selector rejection -/

/-- Claim C8: a provision request whose claim carries a selector fails
with the unsupported-selector error and performs no mutation: the
filesystem state is returned unchanged. -/
theorem c8_selector_rejected (p : nfsProvisioner) (opts : ProvisionOptions) (fs : Fs)
    (h : opts.pvc.hasSelector = true) :
    Provision p opts fs = (.error "claim Selector is not supported", fs) := by
  simp [Provision, h]

/-- Witness for C8 at a concrete claim with a selector. -/
theorem c8_selector_rejected_witness :
    Provision ⟨"srv", "/export", 511, 0, 0⟩
      ⟨⟨"default", "data", [], [], true⟩, "pvc-1", []⟩ [] =
      (.error "claim Selector is not supported", []) :=
  c8_selector_rejected _ _ _ rfl

/-! ## C2: fatal mode parsing vs non-fatal id parsing -/

/-- Models `chownFs` at the changed path: the entry found there is the old entry
with the new owner. -/
theorem fsFind_chownFs (fs : Fs) (q : String) (u g : Int) :
    fsFind (chownFs fs q u g) q =
      (fsFind fs q).map (fun e => { e with uid := u, gid := g }) := by
  induction fs with
  | nil => rfl
  | cons e t ih =>
    by_cases hp : e.path == q
    · simp [chownFs, fsFind, List.find?, hp] at ih ⊢
    · simp only [chownFs, fsFind, List.find?] at ih ⊢
      rw [if_neg hp]
      simp only [List.find?, hp]
      exact ih

/-- Models `chmodFs` at the changed path: the entry found there is the old entry
with the new mode. -/
theorem fsFind_chmodFs (fs : Fs) (q : String) (m : Int) :
    fsFind (chmodFs fs q m) q = (fsFind fs q).map (fun e => { e with mode := m }) := by
  induction fs with
  | nil => rfl
  | cons e t ih =>
    by_cases hp : e.path == q
    · simp [chmodFs, fsFind, List.find?, hp] at ih ⊢
    · simp only [chmodFs, fsFind, List.find?] at ih ⊢
      rw [if_neg hp]
      simp only [List.find?, hp]
      exact ih

/-- After `mkdirAll`, the path has an entry. -/
theorem fsFind_mkdirAll (fs : Fs) (q : String) (m : Int) :
    (fsFind (mkdirAll fs q m) q).isSome := by
  by_cases h : fsHas fs q
  · rw [mkdirAll, if_pos h]
    simp only [fsHas, List.any_eq_true] at h
    obtain ⟨e, he, hp⟩ := h
    simp only [fsFind, List.find?_isSome]
    exact ⟨e, he, hp⟩
  · rw [mkdirAll, if_neg h]
    simp [fsFind, List.find?]

/-- Claim C2: an unparsable or out-of-range directory-mode annotation
fails the Provision call before any filesystem mutation (the state is
returned unchanged, no directory created), whereas an unparsable or
out-of-range uid or gid annotation never surfaces an error: the call
still succeeds and the created directory carries the process-wide default
uid (resp. gid). -/
theorem c2_mode_fatal_id_nonfatal :
    (∀ (p : nfsProvisioner) (opts : ProvisionOptions) (fs : Fs) (e : String),
      opts.pvc.hasSelector = false →
      lookupD opts.pvc.annotations "k8s-sigs.io/nfs-directory-mode" ≠ "" →
      getModeFromString (lookupD opts.pvc.annotations "k8s-sigs.io/nfs-directory-mode")
        = .error e →
      Provision p opts fs =
        (.error ("invalid directoryMode " ++
          lookupD opts.pvc.annotations "k8s-sigs.io/nfs-directory-mode" ++ ": " ++ e), fs)) ∧
    (∀ (p : nfsProvisioner) (opts : ProvisionOptions) (fs : Fs) (m : Int) (e : String),
      opts.pvc.hasSelector = false →
      (if lookupD opts.pvc.annotations "k8s-sigs.io/nfs-directory-mode" = "" then
        Except.ok p.defaultMode
       else getModeFromString (lookupD opts.pvc.annotations "k8s-sigs.io/nfs-directory-mode"))
        = .ok m →
      lookupD opts.pvc.annotations "k8s-sigs.io/nfs-directory-uid" ≠ "" →
      getIdFromString (lookupD opts.pvc.annotations "k8s-sigs.io/nfs-directory-uid")
        = .error e →
      (Provision p opts fs).1 = .ok ⟨p.server, (provisionPaths p opts).2⟩ ∧
      ∃ ent, fsFind (Provision p opts fs).2 (provisionPaths p opts).1 = some ent ∧
        ent.uid = p.defaultUid) ∧
    (∀ (p : nfsProvisioner) (opts : ProvisionOptions) (fs : Fs) (m : Int) (e : String),
      opts.pvc.hasSelector = false →
      (if lookupD opts.pvc.annotations "k8s-sigs.io/nfs-directory-mode" = "" then
        Except.ok p.defaultMode
       else getModeFromString (lookupD opts.pvc.annotations "k8s-sigs.io/nfs-directory-mode"))
        = .ok m →
      lookupD opts.pvc.annotations "k8s-sigs.io/nfs-directory-gid" ≠ "" →
      getIdFromString (lookupD opts.pvc.annotations "k8s-sigs.io/nfs-directory-gid")
        = .error e →
      (Provision p opts fs).1 = .ok ⟨p.server, (provisionPaths p opts).2⟩ ∧
      ∃ ent, fsFind (Provision p opts fs).2 (provisionPaths p opts).1 = some ent ∧
        ent.gid = p.defaultGid) := by
  refine ⟨?_, ?_, ?_⟩
  · intro p opts fs e hsel hne herr
    simp [Provision, hsel, hne, herr]
  · intro p opts fs m e hsel hmode hne herr
    have hfs : Provision p opts fs =
        (.ok ⟨p.server, (provisionPaths p opts).2⟩,
          chownFs
            (chmodFs (mkdirAll fs (provisionPaths p opts).1 m) (provisionPaths p opts).1 m)
            (provisionPaths p opts).1 p.defaultUid
            (if lookupD opts.pvc.annotations "k8s-sigs.io/nfs-directory-gid" = "" then
              p.defaultGid
             else
              match getIdFromString
                  (lookupD opts.pvc.annotations "k8s-sigs.io/nfs-directory-gid") with
              | .ok g => g
              | .error _ => p.defaultGid)) := by
      simp [Provision, hsel, hmode, hne, herr]
    refine ⟨by rw [hfs], ?_⟩
    rw [hfs]
    simp only [fsFind_chownFs]
    have hsome := fsFind_mkdirAll fs (provisionPaths p opts).1 m
    rw [Option.isSome_iff_exists] at hsome
    obtain ⟨ent0, hent0⟩ := hsome
    rw [show fsFind (chmodFs (mkdirAll fs (provisionPaths p opts).1 m)
        (provisionPaths p opts).1 m) (provisionPaths p opts).1 =
      (fsFind (mkdirAll fs (provisionPaths p opts).1 m) (provisionPaths p opts).1).map
        (fun e => { e with mode := m }) from fsFind_chmodFs _ _ _]
    rw [hent0]
    exact ⟨_, rfl, rfl⟩
  · intro p opts fs m e hsel hmode hne herr
    have hfs : Provision p opts fs =
        (.ok ⟨p.server, (provisionPaths p opts).2⟩,
          chownFs
            (chmodFs (mkdirAll fs (provisionPaths p opts).1 m) (provisionPaths p opts).1 m)
            (provisionPaths p opts).1
            (if lookupD opts.pvc.annotations "k8s-sigs.io/nfs-directory-uid" = "" then
              p.defaultUid
             else
              match getIdFromString
                  (lookupD opts.pvc.annotations "k8s-sigs.io/nfs-directory-uid") with
              | .ok u => u
              | .error _ => p.defaultUid)
            p.defaultGid) := by
      simp [Provision, hsel, hmode, hne, herr]
    refine ⟨by rw [hfs], ?_⟩
    rw [hfs]
    simp only [fsFind_chownFs]
    have hsome := fsFind_mkdirAll fs (provisionPaths p opts).1 m
    rw [Option.isSome_iff_exists] at hsome
    obtain ⟨ent0, hent0⟩ := hsome
    rw [show fsFind (chmodFs (mkdirAll fs (provisionPaths p opts).1 m)
        (provisionPaths p opts).1 m) (provisionPaths p opts).1 =
      (fsFind (mkdirAll fs (provisionPaths p opts).1 m) (provisionPaths p opts).1).map
        (fun e => { e with mode := m }) from fsFind_chmodFs _ _ _]
    rw [hent0]
    exact ⟨_, rfl, rfl⟩

/-- Witness for C2: a concrete claim with an unparsable uid annotation
"abc" still provisions, with the default uid 0. -/
theorem c2_mode_fatal_id_nonfatal_witness :
    (Provision ⟨"srv", "/export", 511, 0, 0⟩
      ⟨⟨"default", "data", [], [("k8s-sigs.io/nfs-directory-uid", "abc")], false⟩,
        "pvc-1", []⟩ []).1 =
      .ok ⟨"srv", (provisionPaths ⟨"srv", "/export", 511, 0, 0⟩
        ⟨⟨"default", "data", [], [("k8s-sigs.io/nfs-directory-uid", "abc")], false⟩,
          "pvc-1", []⟩).2⟩ ∧
    ∃ ent, fsFind (Provision ⟨"srv", "/export", 511, 0, 0⟩
      ⟨⟨"default", "data", [], [("k8s-sigs.io/nfs-directory-uid", "abc")], false⟩,
        "pvc-1", []⟩ []).2
      (provisionPaths ⟨"srv", "/export", 511, 0, 0⟩
        ⟨⟨"default", "data", [], [("k8s-sigs.io/nfs-directory-uid", "abc")], false⟩,
          "pvc-1", []⟩).1 = some ent ∧ ent.uid = (0 : Int) :=
  c2_mode_fatal_id_nonfatal.2.1 ⟨"srv", "/export", 511, 0, 0⟩
    ⟨⟨"default", "data", [], [("k8s-sigs.io/nfs-directory-uid", "abc")], false⟩, "pvc-1", []⟩
    [] 511 "invalid id abc" rfl (by rfl) (by decide) (by rfl)

/-! ## C9: local path derivation in Delete -/

/-- Models `a.isPrefixOf (a ++ b)` holds. -/
theorem isPrefixOf_append_self (a b : List Char) : a.isPrefixOf (a ++ b) = true := by
  rw [List.isPrefixOf_iff_prefix]
  exact List.prefix_append a b

/-- Replacing the first occurrence of a leading `a` in `a ++ b`. -/
theorem replaceOnceChars_left_eq (a b rep : List Char) :
    replaceOnceChars (a ++ b) a rep = rep ++ b := by
  cases a with
  | nil => rw [replaceOnceChars.eq_def]; simp
  | cons c t =>
    show replaceOnceChars (c :: (t ++ b)) (c :: t) rep = rep ++ b
    rw [replaceOnceChars, if_neg (by simp)]
    rw [show (c :: (t ++ b)) = (c :: t) ++ b from rfl]
    rw [if_pos (isPrefixOf_append_self (c :: t) b), List.drop_left]

/-- Claim C9: for a volume whose server-visible path extends the export
base path, `Delete` derives the local path by substituting the mount root
for the export base path prefix, leaving the remainder unchanged. -/
theorem c9_delete_local_path (p : nfsProvisioner) (rest : String) :
    deleteLocalPath p (p.path ++ rest) = mountPath ++ rest := by
  unfold deleteLocalPath replaceOnce
  rw [String.data_append, replaceOnceChars_left_eq]
  apply String.ext
  simp [String.data_append]

/-! ## C1: Delete dispatch precedence -/

/-- Claim C1: for a Delete call on an existing local path with a
successful storage-class lookup, the action dispatches with this
precedence: `onDelete=delete` removes the tree; `onDelete=retain`
succeeds leaving the state untouched; any other value falls through to
`archiveOnDelete` — parsed false removes the tree, parsed true or absent
renames the directory to `archived-<basename>` under the mount root, and
an unparsable value is an error. -/
theorem c1_delete_dispatch (p : nfsProvisioner) (sc : StorageClass) (fs : Fs)
    (volPath : String)
    (hex : fsHas fs (deleteLocalPath p volPath) = true) :
    (lookupD sc.parameters "onDelete" = "delete" →
      Delete p (.ok sc) fs volPath = .ok (removeAllFs fs (deleteLocalPath p volPath))) ∧
    (lookupD sc.parameters "onDelete" = "retain" →
      Delete p (.ok sc) fs volPath = .ok fs) ∧
    (lookupD sc.parameters "onDelete" ≠ "delete" →
     lookupD sc.parameters "onDelete" ≠ "retain" →
      (∀ a, lookupOpt sc.parameters "archiveOnDelete" = some a →
        (parseBool a = some false →
          Delete p (.ok sc) fs volPath = .ok (removeAllFs fs (deleteLocalPath p volPath))) ∧
        (parseBool a = some true →
          Delete p (.ok sc) fs volPath =
            .ok (renameFs fs (deleteLocalPath p volPath)
              (joinPath mountPath ("archived-" ++ baseName volPath)))) ∧
        (parseBool a = none → ∃ e, Delete p (.ok sc) fs volPath = .error e)) ∧
      (lookupOpt sc.parameters "archiveOnDelete" = none →
        Delete p (.ok sc) fs volPath =
          .ok (renameFs fs (deleteLocalPath p volPath)
            (joinPath mountPath ("archived-" ++ baseName volPath))))) := by
  refine ⟨?_, ?_, ?_⟩
  · intro hD
    simp [Delete, hex, hD]
  · intro hR
    simp [Delete, hex, hR]
  · intro hD hR
    constructor
    · intro a ha
      refine ⟨?_, ?_, ?_⟩
      · intro hb
        simp [Delete, hex, hD, hR, ha, hb]
      · intro hb
        simp [Delete, hex, hD, hR, ha, hb]
      · intro hb
        refine ⟨"parsing \"" ++ a ++ "\": invalid syntax", ?_⟩
        simp [Delete, hex, hD, hR, ha, hb]
    · intro ha
      simp [Delete, hex, hD, hR, ha]

/-- Witness for C1: a concrete `onDelete=delete` call removes the tree. -/
theorem c1_delete_dispatch_witness :
    Delete ⟨"srv", "/export", 511, 0, 0⟩ (.ok ⟨[("onDelete", "delete")]⟩)
      [⟨"/persistentvolumes/pv-a", 511, 0, 0⟩] "/export/pv-a" = .ok [] :=
  (c1_delete_dispatch ⟨"srv", "/export", 511, 0, 0⟩ ⟨[("onDelete", "delete")]⟩
      [⟨"/persistentvolumes/pv-a", 511, 0, 0⟩] "/export/pv-a" (by rfl)).1 (by rfl)

/-! ## C3: Delete idempotence -/

/-- Counterexample to claim C3 as stated: with `archiveOnDelete` set to
the unparsable value "banana" and the local path existing, the first
Delete call errors (leaving the state unchanged, as the returned state of
an erroring call is the input state), and the second call in sequence
errors again — so Delete twice in sequence CAN error the second time. -/
theorem c3_counterexample :
    (∃ e, Delete ⟨"srv", "/export", 511, 0, 0⟩ (.ok ⟨[("archiveOnDelete", "banana")]⟩)
      [⟨"/persistentvolumes/pv-a", 511, 0, 0⟩] "/export/pv-a" = .error e) ∧
    (∃ e, Delete ⟨"srv", "/export", 511, 0, 0⟩ (.ok ⟨[("archiveOnDelete", "banana")]⟩)
      ((Delete ⟨"srv", "/export", 511, 0, 0⟩ (.ok ⟨[("archiveOnDelete", "banana")]⟩)
        [⟨"/persistentvolumes/pv-a", 511, 0, 0⟩] "/export/pv-a").toOption.getD
          [⟨"/persistentvolumes/pv-a", 511, 0, 0⟩]) "/export/pv-a" = .error e) :=
  ⟨⟨"parsing \"banana\": invalid syntax", rfl⟩,
   ⟨"parsing \"banana\": invalid syntax", rfl⟩⟩

/-- Claim C3 (amended): if the derived local path does not exist, Delete
returns success with the state unchanged, independently of the
storage-class lookup; and whenever a Delete call succeeds, a second call
on the resulting state with the same storage class also succeeds. -/
theorem c3_amended :
    (∀ (p : nfsProvisioner) (lookup : Except String StorageClass) (fs : Fs)
        (volPath : String),
      fsHas fs (deleteLocalPath p volPath) = false →
        Delete p lookup fs volPath = .ok fs) ∧
    (∀ (p : nfsProvisioner) (lookup : Except String StorageClass) (fs fs2 : Fs)
        (volPath : String),
      Delete p lookup fs volPath = .ok fs2 →
        ∃ fs3, Delete p lookup fs2 volPath = .ok fs3) := by
  constructor
  · intro p lookup fs volPath h1
    simp [Delete, h1]
  · intro p lookup fs fs2 volPath h
    cases h2 : fsHas fs2 (deleteLocalPath p volPath) with
    | false => exact ⟨fs2, by simp [Delete, h2]⟩
    | true =>
      cases h1 : fsHas fs (deleteLocalPath p volPath) with
      | false =>
        rw [show Delete p lookup fs volPath = .ok fs from by simp [Delete, h1]] at h
        cases h
        rw [h1] at h2
        cases h2
      | true =>
        cases lookup with
        | error e => simp [Delete, h1] at h
        | ok sc =>
          by_cases hD : lookupD sc.parameters "onDelete" = "delete"
          · exact ⟨removeAllFs fs2 (deleteLocalPath p volPath), by simp [Delete, h2, hD]⟩
          · by_cases hR : lookupD sc.parameters "onDelete" = "retain"
            · exact ⟨fs2, by simp [Delete, h2, hD, hR]⟩
            · cases ha : lookupOpt sc.parameters "archiveOnDelete" with
              | none =>
                exact ⟨renameFs fs2 (deleteLocalPath p volPath)
                  (joinPath mountPath ("archived-" ++ baseName volPath)),
                  by simp [Delete, h2, hD, hR, ha]⟩
              | some a =>
                cases hb : parseBool a with
                | none => simp [Delete, h1, hD, hR, ha, hb] at h
                | some b =>
                  cases b with
                  | false =>
                    exact ⟨removeAllFs fs2 (deleteLocalPath p volPath),
                      by simp [Delete, h2, hD, hR, ha, hb]⟩
                  | true =>
                    exact ⟨renameFs fs2 (deleteLocalPath p volPath)
                      (joinPath mountPath ("archived-" ++ baseName volPath)),
                      by simp [Delete, h2, hD, hR, ha, hb]⟩

/-- Witness for C3 (amended): a concrete successful archive-on-delete
call, after which a second Delete call also succeeds. -/
theorem c3_amended_witness :
    ∃ fs3, Delete ⟨"srv", "/export", 511, 0, 0⟩ (.ok ⟨[]⟩)
      [⟨"/persistentvolumes/archived-pv-a", 511, 0, 0⟩] "/export/pv-a" = .ok fs3 :=
  c3_amended.2 ⟨"srv", "/export", 511, 0, 0⟩ (.ok ⟨[]⟩)
    [⟨"/persistentvolumes/pv-a", 511, 0, 0⟩]
    [⟨"/persistentvolumes/archived-pv-a", 511, 0, 0⟩] "/export/pv-a" (by rfl)

/-! ## C4: the two provisioned paths differ only in their root -/

/-- Models `splitSlash` never returns the empty list. -/
theorem splitSlash_ne_nil (l : List Char) : splitSlash l ≠ [] := by
  cases l with
  | nil => simp [splitSlash]
  | cons c rest =>
    by_cases h : c = '/'
    · simp [splitSlash, h]
    · rw [splitSlash, if_neg h]
      cases hs : splitSlash rest with
      | nil => simp
      | cons x xs => simp

/-- Models `interSlash` is a left inverse of `splitSlash`. -/
theorem interSlash_splitSlash (l : List Char) : interSlash (splitSlash l) = l := by
  induction l with
  | nil => rfl
  | cons c rest ih =>
    by_cases h : c = '/'
    · rw [splitSlash, if_pos h]
      cases hs : splitSlash rest with
      | nil => exact absurd hs (splitSlash_ne_nil rest)
      | cons x xs =>
        rw [interSlash]
        rw [hs] at ih
        rw [ih, h]
        simp
    · rw [splitSlash, if_neg h]
      cases hs : splitSlash rest with
      | nil => exact absurd hs (splitSlash_ne_nil rest)
      | cons x xs =>
        rw [hs] at ih
        cases xs with
        | nil =>
          rw [interSlash]
          rw [interSlash] at ih
          rw [ih]
        | cons y ys =>
          rw [interSlash]
          rw [interSlash] at ih
          simp only [List.cons_append]
          rw [ih]

/-- Splitting a concatenation around a slash splits each side. -/
theorem splitSlash_append (a b : List Char) :
    splitSlash (a ++ '/' :: b) = splitSlash a ++ splitSlash b := by
  induction a with
  | nil => simp [splitSlash]
  | cons c rest ih =>
    by_cases h : c = '/'
    · simp only [List.cons_append]
      rw [splitSlash, if_pos h, ih, splitSlash, if_pos h]
      rfl
    · simp only [List.cons_append]
      rw [splitSlash, if_neg h, ih]
      rw [splitSlash, if_neg h]
      cases hs : splitSlash rest with
      | nil => exact absurd hs (splitSlash_ne_nil rest)
      | cons x xs => simp

/-- Models `cleanStack` appends components untouched when none of them is `..`. -/
theorem cleanStack_no_dotdot (rooted : Bool) (comps : List (List Char))
    (h : ∀ c ∈ comps, goodComp c = true) :
    ∀ acc, cleanStack rooted acc comps = acc ++ comps := by
  induction comps with
  | nil => intro acc; simp [cleanStack]
  | cons c rest ih =>
    intro acc
    have hc := h c (by simp)
    have hne : c ≠ ['.', '.'] := by
      intro he
      rw [he] at hc
      simp [goodComp] at hc
    rw [cleanStack, if_neg hne, ih (fun x hx => h x (by simp [hx]))]
    simp

/-- A good component passes the empty/dot filter of `pathCleanChars`. -/
theorem goodComp_filter (c : List Char) (h : goodComp c = true) :
    (!c.isEmpty && c != ['.']) = true := by
  simp only [goodComp, Bool.and_eq_true] at h
  simp [h.1.1, h.1.2]

/-- Models `pathCleanChars` is the identity on an already-clean absolute path
extended by an already-clean relative suffix. -/
theorem pathCleanChars_clean (rest s : List Char)
    (hrest : ∀ c ∈ splitSlash rest, goodComp c = true)
    (hs : ∀ c ∈ splitSlash s, goodComp c = true) :
    pathCleanChars ('/' :: (rest ++ '/' :: s)) = '/' :: (rest ++ '/' :: s) := by
  have hall : ∀ c ∈ splitSlash rest ++ splitSlash s, goodComp c = true := by
    intro c hc
    rcases List.mem_append.mp hc with h | h
    · exact hrest c h
    · exact hs c h
  rw [pathCleanChars]
  rw [if_neg (by simp)]
  simp only [List.head?_cons]
  have hsplit : splitSlash ('/' :: (rest ++ '/' :: s)) =
      [] :: (splitSlash rest ++ splitSlash s) := by
    rw [splitSlash, if_pos rfl, splitSlash_append]
  rw [hsplit]
  have hfilter : ([] :: (splitSlash rest ++ splitSlash s)).filter
      (fun c => !c.isEmpty && c != ['.']) = splitSlash rest ++ splitSlash s := by
    rw [List.filter_cons_of_neg (by simp)]
    rw [List.filter_eq_self.mpr (fun c hc => goodComp_filter c (hall c hc))]
  rw [hfilter]
  rw [cleanStack_no_dotdot _ _ hall []]
  rw [if_pos (by trivial)]
  simp only [List.nil_append]
  rw [show splitSlash rest ++ splitSlash s = splitSlash (rest ++ '/' :: s) from
    (splitSlash_append rest s).symm]
  rw [interSlash_splitSlash]

/-- Models `joinPath` of a clean absolute root and a clean relative suffix is
plain concatenation with a slash. -/
theorem joinPath_clean (a b : String) (ha : isCleanAbs a = true)
    (hb : isCleanRel b = true) : joinPath a b = a ++ "/" ++ b := by
  rw [isCleanRel, Bool.and_eq_true] at hb
  rw [isCleanAbs] at ha
  split at ha
  case h_2 => exact absurd ha (by simp)
  case h_1 rest heq =>
    rw [Bool.and_eq_true] at ha
    have hane : ¬ a = "" := by
      intro he
      rw [he] at heq
      simp at heq
    rw [joinPath, if_neg hane]
    have hdata2 : (a ++ "/" ++ b).data = '/' :: (rest ++ '/' :: b.data) := by
      rw [String.data_append, String.data_append, heq,
        show ("/" : String).data = ['/'] from rfl]
      simp
    rw [pathClean, hdata2]
    rw [pathCleanChars_clean rest b.data
      (fun c hc => by
        have := ha.2
        rw [List.all_eq_true] at this
        exact this c hc)
      (fun c hc => by
        have := hb.2
        rw [List.all_eq_true] at this
        exact this c hc)]
    apply String.ext
    rw [hdata2]

/-- Models `provisionPaths` always joins the mount root (resp. export base path)
with the effective suffix. -/
theorem provisionPaths_eq (p : nfsProvisioner) (opts : ProvisionOptions) :
    provisionPaths p opts =
      (joinPath mountPath (effectiveSuffix opts),
       joinPath p.path (effectiveSuffix opts)) := by
  rw [provisionPaths, effectiveSuffix]
  cases lookupOpt opts.storageClassParameters "pathPattern" with
  | none => rfl
  | some pat =>
    by_cases h : stringParser (metadataOf opts) pat ≠ ""
    · simp [h]
    · simp [h]

/-- Counterexample to claim C4 as stated: with `pathPattern` set to the
literal `..`, the pattern expands to the non-empty string `..`, but
`filepath.Join` cleans the resulting paths, so the locally created path
is `/` and is NOT the mount root followed by the suffix. -/
theorem c4_counterexample :
    (provisionPaths ⟨"srv", "/export", 511, 0, 0⟩
      ⟨⟨"default", "data", [], [], false⟩, "pvc-1", [("pathPattern", "..")]⟩).1 ≠
    mountPath ++ "/" ++
      effectiveSuffix ⟨⟨"default", "data", [], [], false⟩, "pvc-1",
        [("pathPattern", "..")]⟩ := by decide

/-- Claim C4 (amended): whenever the effective suffix (the non-empty
pattern expansion, or else the default
`{namespace}-{claimName}-{generatedVolumeName}` name) is a clean relative
path and the export base path is a clean absolute path, the locally
created path and the server-visible path are exactly the mount root
(resp. the export base path) followed by a slash and that common
suffix. -/
theorem c4_amended (p : nfsProvisioner) (opts : ProvisionOptions)
    (ha : isCleanAbs p.path = true)
    (hb : isCleanRel (effectiveSuffix opts) = true) :
    (provisionPaths p opts).1 = mountPath ++ "/" ++ effectiveSuffix opts ∧
    (provisionPaths p opts).2 = p.path ++ "/" ++ effectiveSuffix opts := by
  rw [provisionPaths_eq]
  exact ⟨joinPath_clean mountPath _ (by decide) hb, joinPath_clean p.path _ ha hb⟩

/-- Witness for C4 (amended) at a concrete claim with no pattern. -/
theorem c4_amended_witness :
    (provisionPaths ⟨"srv", "/export", 511, 0, 0⟩
      ⟨⟨"default", "data", [], [], false⟩, "pvc-1", []⟩).1 =
      mountPath ++ "/" ++ effectiveSuffix ⟨⟨"default", "data", [], [], false⟩, "pvc-1", []⟩ ∧
    (provisionPaths ⟨"srv", "/export", 511, 0, 0⟩
      ⟨⟨"default", "data", [], [], false⟩, "pvc-1", []⟩).2 =
      "/export" ++ "/" ++ effectiveSuffix ⟨⟨"default", "data", [], [], false⟩, "pvc-1", []⟩ :=
  c4_amended ⟨"srv", "/export", 511, 0, 0⟩
    ⟨⟨"default", "data", [], [], false⟩, "pvc-1", []⟩ (by decide) (by decide)

/-! ## C5/C10: the metadata resolver versus single-pass substitution -/

/-- A successful brace scan decomposes the input. -/
theorem scanBrace_sound (l i a : List Char) (h : scanBrace l = some (i, a)) :
    l = i ++ rbrace :: a := by
  induction l generalizing i with
  | nil => simp [scanBrace] at h
  | cons c rest ih =>
    rw [scanBrace] at h
    by_cases hc : c = rbrace
    · rw [if_pos hc] at h
      cases h
      rw [hc]
      rfl
    · rw [if_neg hc] at h
      by_cases hn : c = '\n'
      · rw [if_pos hn] at h; cases h
      · rw [if_neg hn] at h
        cases hs : scanBrace rest with
        | none => rw [hs] at h; cases h
        | some p =>
          obtain ⟨i0, a0⟩ := p
          rw [hs] at h
          cases h
          rw [ih i0 hs]
          rfl

/-- The inner text of a successful brace scan contains no closing brace. -/
theorem scanBrace_no_brace (l i a : List Char) (h : scanBrace l = some (i, a)) :
    i.contains rbrace = false := by
  induction l generalizing i with
  | nil => simp [scanBrace] at h
  | cons c rest ih =>
    rw [scanBrace] at h
    by_cases hc : c = rbrace
    · rw [if_pos hc] at h
      cases h
      rfl
    · rw [if_neg hc] at h
      by_cases hn : c = '\n'
      · rw [if_pos hn] at h; cases h
      · rw [if_neg hn] at h
        cases hs : scanBrace rest with
        | none => rw [hs] at h; cases h
        | some p =>
          obtain ⟨i0, a0⟩ := p
          rw [hs] at h
          cases h
          have := ih i0 hs
          rw [List.contains_cons]
          simp only [Bool.or_eq_false_iff]
          refine ⟨?_, this⟩
          simp only [beq_eq_false_iff_ne, ne_eq]
          exact fun he => hc he.symm

/-- The remainder of a successful brace scan is shorter than the input. -/
theorem scanBrace_len (l i a : List Char) (h : scanBrace l = some (i, a)) :
    a.length < l.length := by
  induction l generalizing i with
  | nil => simp [scanBrace] at h
  | cons c rest ih =>
    rw [scanBrace] at h
    by_cases hc : c = rbrace
    · rw [if_pos hc] at h
      cases h
      simp
    · rw [if_neg hc] at h
      by_cases hn : c = '\n'
      · rw [if_pos hn] at h; cases h
      · rw [if_neg hn] at h
        cases hs : scanBrace rest with
        | none => rw [hs] at h; cases h
        | some p =>
          obtain ⟨i0, a0⟩ := p
          rw [hs] at h
          cases h
          have := ih i0 hs
          simp only [List.length_cons]
          omega

/-- Models `segsOfAux` does not depend on the fuel once it exceeds the input
length. -/
theorem segsOfAux_fuel : ∀ f1 f2 s, s.length < f1 → s.length < f2 →
    segsOfAux f1 s = segsOfAux f2 s := by
  intro f1
  induction f1 with
  | zero => intro f2 s h1 _; omega
  | succ f ih =>
    intro f2 s h1 h2
    match f2, s with
    | 0, s => omega
    | g + 1, [] => rfl
    | g + 1, c :: rest =>
      show (if placeholderHead.isPrefixOf (c :: rest) then
          match scanBrace (rest.drop 6) with
          | some (inner, after) => Seg.hole inner :: segsOfAux f after
          | none => Seg.lit c :: segsOfAux f rest
        else Seg.lit c :: segsOfAux f rest) =
        (if placeholderHead.isPrefixOf (c :: rest) then
          match scanBrace (rest.drop 6) with
          | some (inner, after) => Seg.hole inner :: segsOfAux g after
          | none => Seg.lit c :: segsOfAux g rest
        else Seg.lit c :: segsOfAux g rest)
      have hrest1 : rest.length < f := by
        simp only [List.length_cons] at h1; omega
      have hrest2 : rest.length < g := by
        simp only [List.length_cons] at h2; omega
      by_cases hp : placeholderHead.isPrefixOf (c :: rest)
      · rw [if_pos hp, if_pos hp]
        cases hs : scanBrace (rest.drop 6) with
        | none =>
          show Seg.lit c :: segsOfAux f rest = Seg.lit c :: segsOfAux g rest
          rw [ih g rest hrest1 hrest2]
        | some p =>
          obtain ⟨inner, after⟩ := p
          have hlen := scanBrace_len _ _ _ hs
          have hda : after.length < f := by
            simp only [List.length_drop] at hlen; omega
          have hdb : after.length < g := by
            simp only [List.length_drop] at hlen; omega
          show Seg.hole inner :: segsOfAux f after = Seg.hole inner :: segsOfAux g after
          rw [ih g after hda hdb]
      · rw [if_neg hp, if_neg hp, ih g rest hrest1 hrest2]

/-- Unfolding: `segsOf` at a placeholder match. -/
theorem segsOf_cons_hole (c : Char) (rest inner after : List Char)
    (hpre : placeholderHead.isPrefixOf (c :: rest) = true)
    (hscan : scanBrace (rest.drop 6) = some (inner, after)) :
    segsOf (c :: rest) = .hole inner :: segsOf after := by
  rw [segsOf, segsOf]
  show (if placeholderHead.isPrefixOf (c :: rest) then
      match scanBrace (rest.drop 6) with
      | some (inner, after) => Seg.hole inner :: segsOfAux (c :: rest).length after
      | none => Seg.lit c :: segsOfAux (c :: rest).length rest
    else Seg.lit c :: segsOfAux (c :: rest).length rest) = _
  rw [if_pos hpre, hscan]
  show Seg.hole inner :: segsOfAux (c :: rest).length after
      = Seg.hole inner :: segsOfAux (after.length + 1) after
  congr 1
  apply segsOfAux_fuel
  · have := scanBrace_len _ _ _ hscan
    simp only [List.length_drop] at this
    simp only [List.length_cons]
    omega
  · simp

/-- Unfolding: `segsOf` at a non-matching position. -/
theorem segsOf_cons_lit (c : Char) (rest : List Char)
    (h : placeholderHead.isPrefixOf (c :: rest) = false ∨
      scanBrace (rest.drop 6) = none) :
    segsOf (c :: rest) = .lit c :: segsOf rest := by
  rw [segsOf, segsOf]
  show (if placeholderHead.isPrefixOf (c :: rest) then
      match scanBrace (rest.drop 6) with
      | some (inner, after) => Seg.hole inner :: segsOfAux (c :: rest).length after
      | none => Seg.lit c :: segsOfAux (c :: rest).length rest
    else Seg.lit c :: segsOfAux (c :: rest).length rest) = _
  have htail : segsOfAux (c :: rest).length rest = segsOfAux (rest.length + 1) rest := by
    apply segsOfAux_fuel
    · simp
    · simp
  rcases h with h | h
  · rw [if_neg (by simp [h]), htail]
  · by_cases hp : placeholderHead.isPrefixOf (c :: rest)
    · rw [if_pos hp, h]
      show Seg.lit c :: segsOfAux (c :: rest).length rest
          = Seg.lit c :: segsOfAux (rest.length + 1) rest
      rw [htail]
    · rw [if_neg hp, htail]

/-- Rendering the segments of a string restores the string. -/
theorem segsOf_render (s : List Char) : flatCat ((segsOf s).map renderSeg) = s := by
  suffices h : ∀ n s, s.length ≤ n → flatCat ((segsOf s).map renderSeg) = s from
    h s.length s le_rfl
  intro n
  induction n with
  | zero =>
    intro s hs
    rw [List.length_eq_zero.mp (by omega : s.length = 0)]
    rfl
  | succ n ih =>
    intro s hs
    match s with
    | [] => rfl
    | c :: rest =>
      by_cases hp : placeholderHead.isPrefixOf (c :: rest)
      · cases hscan : scanBrace (rest.drop 6) with
        | none =>
          rw [segsOf_cons_lit c rest (Or.inr hscan)]
          simp only [List.map_cons, flatCat, List.foldr_cons]
          have : flatCat ((segsOf rest).map renderSeg) = rest := by
            apply ih
            simp only [List.length_cons] at hs
            omega
          rw [show List.foldr (fun a b => a ++ b) [] (List.map renderSeg (segsOf rest))
            = flatCat ((segsOf rest).map renderSeg) from rfl, this]
          rfl
        | some p =>
          obtain ⟨inner, after⟩ := p
          rw [segsOf_cons_hole c rest inner after hp hscan]
          simp only [List.map_cons, flatCat, List.foldr_cons]
          have hlen := scanBrace_len _ _ _ hscan
          have : flatCat ((segsOf after).map renderSeg) = after := by
            apply ih
            simp only [List.length_drop] at hlen
            simp only [List.length_cons] at hs
            omega
          rw [show List.foldr (fun a b => a ++ b) [] (List.map renderSeg (segsOf after))
            = flatCat ((segsOf after).map renderSeg) from rfl, this]
          have hdecomp : c :: rest = placeholderHead ++ rest.drop 6 := by
            have := List.prefix_iff_eq_append.mp (List.isPrefixOf_iff_prefix.mp hp)
            rw [← this]
            rfl
          rw [renderSeg, holeText]
          rw [hdecomp, scanBrace_sound _ _ _ hscan]
          simp
      · rw [segsOf_cons_lit c rest (Or.inl (by simp [hp]))]
        simp only [List.map_cons, flatCat, List.foldr_cons]
        have : flatCat ((segsOf rest).map renderSeg) = rest := by
          apply ih
          simp only [List.length_cons] at hs
          omega
        rw [show List.foldr (fun a b => a ++ b) [] (List.map renderSeg (segsOf rest))
          = flatCat ((segsOf rest).map renderSeg) from rfl, this]
        rfl

/-- Every hole produced by the scan contains no closing brace. -/
theorem segsOf_hole_no_brace (s i : List Char) (h : Seg.hole i ∈ segsOf s) :
    i.contains rbrace = false := by
  suffices hgen : ∀ n s, s.length ≤ n → Seg.hole i ∈ segsOf s →
      i.contains rbrace = false from hgen s.length s le_rfl h
  intro n
  induction n with
  | zero =>
    intro s hs hmem
    rw [List.length_eq_zero.mp (by omega : s.length = 0)] at hmem
    simp [segsOf] at hmem
    exact absurd hmem (by simp [segsOfAux])
  | succ n ih =>
    intro s hs hmem
    match s with
    | [] => exact absurd hmem (by simp [segsOf, segsOfAux])
    | c :: rest =>
      by_cases hp : placeholderHead.isPrefixOf (c :: rest)
      · cases hscan : scanBrace (rest.drop 6) with
        | none =>
          rw [segsOf_cons_lit c rest (Or.inr hscan)] at hmem
          rcases List.mem_cons.mp hmem with he | he
          · cases he
          · exact ih rest (by simp only [List.length_cons] at hs; omega) he
        | some p =>
          obtain ⟨inner, after⟩ := p
          rw [segsOf_cons_hole c rest inner after hp hscan] at hmem
          rcases List.mem_cons.mp hmem with he | he
          · cases he
            exact scanBrace_no_brace _ _ _ hscan
          · have hlen := scanBrace_len _ _ _ hscan
            apply ih after _ he
            simp only [List.length_drop] at hlen
            simp only [List.length_cons] at hs
            omega
      · rw [segsOf_cons_lit c rest (Or.inl (by simp [hp]))] at hmem
        rcases List.mem_cons.mp hmem with he | he
        · cases he
        · exact ih rest (by simp only [List.length_cons] at hs; omega) he

/-- Replacement passes over a block that contains no `$` when the
pattern starts with `$`. -/
theorem replaceAll_append_left (l t pat rep : List Char) (hpat : pat ≠ [])
    (hhead : pat.head? = some '$') (hl : l.contains '$' = false) :
    replaceAllChars (l ++ t) pat rep = l ++ replaceAllChars t pat rep := by
  induction l with
  | nil => simp
  | cons c l2 ih =>
    have hc : ('$' == c) = false := by
      rw [List.contains_cons] at hl
      exact (Bool.or_eq_false_iff.mp hl).1
    have hl2 : l2.contains '$' = false := by
      rw [List.contains_cons] at hl
      exact (Bool.or_eq_false_iff.mp hl).2
    have hnp : ¬ pat.isPrefixOf (c :: (l2 ++ t)) = true := by
      cases pat with
      | nil => exact absurd rfl hpat
      | cons p ps =>
        have hp : p = '$' := by
          simp only [List.head?_cons, Option.some.injEq] at hhead
          exact hhead
        rw [List.isPrefixOf, Bool.and_eq_true]
        intro hcon
        rw [hp] at hcon
        rw [beq_eq_false_iff_ne] at hc
        exact hc ((beq_iff_eq.mp hcon.1).symm ▸ rfl)
    rw [List.cons_append, replaceAll_neg c (l2 ++ t) pat rep hpat hnp, ih hl2]
    rfl

/-- Prefix comparison of brace-terminated blocks: with brace-free bodies,
`xs ++ [rbrace]` is a prefix of `ys ++ rbrace :: t` exactly when
`xs = ys`. -/
theorem append_rbrace_isPre_iff (xs : List Char) : ∀ (ys t : List Char),
    xs.contains rbrace = false → ys.contains rbrace = false →
    ((xs ++ [rbrace]).isPrefixOf (ys ++ rbrace :: t) = true ↔ xs = ys) := by
  induction xs with
  | nil =>
    intro ys t _ hys
    cases ys with
    | nil => simp [List.isPrefixOf]
    | cons y ys2 =>
      have hy : (rbrace == y) = false := by
        rw [List.contains_cons] at hys
        exact (Bool.or_eq_false_iff.mp hys).1
      simp [List.isPrefixOf, hy]
  | cons x xs2 ih =>
    intro ys t hxs hys
    cases ys with
    | nil =>
      have hx : (x == rbrace) = false := by
        rw [List.contains_cons] at hxs
        have h1 := (Bool.or_eq_false_iff.mp hxs).1
        rw [beq_eq_false_iff_ne] at h1 ⊢
        exact fun he => h1 he.symm
      simp [List.isPrefixOf, hx]
    | cons y ys2 =>
      have hxs2 : xs2.contains rbrace = false := by
        rw [List.contains_cons] at hxs
        exact (Bool.or_eq_false_iff.mp hxs).2
      have hys2 : ys2.contains rbrace = false := by
        rw [List.contains_cons] at hys
        exact (Bool.or_eq_false_iff.mp hys).2
      show ((x :: (xs2 ++ [rbrace])).isPrefixOf (y :: (ys2 ++ rbrace :: t)) = true ↔ _)
      rw [List.isPrefixOf, Bool.and_eq_true, ih ys2 t hxs2 hys2, beq_iff_eq]
      constructor
      · exact fun ⟨h1, h2⟩ => by rw [h1, h2]
      · intro h
        injection h with h1 h2
        exact ⟨h1, h2⟩

/-- Prefix testing cancels a common left part. -/
theorem isPrefixOf_append_cancel (a u v : List Char) :
    (a ++ u).isPrefixOf (a ++ v) = u.isPrefixOf v := by
  induction a with
  | nil => rfl
  | cons c a2 ih => simp [List.isPrefixOf, ih]

/-- The full text of one hole is a prefix of another hole's text (plus
anything) exactly when the inners agree. -/
theorem holeText_isPre_iff (i inner t : List Char)
    (hi : i.contains rbrace = false) (hinner : inner.contains rbrace = false) :
    ((holeText inner).isPrefixOf (holeText i ++ t) = true ↔ inner = i) := by
  have hshape : holeText i ++ t = placeholderHead ++ (i ++ rbrace :: t) := by
    rw [holeText]
    simp
  have hshape2 : holeText inner = placeholderHead ++ (inner ++ [rbrace]) := by
    rw [holeText]
    simp
  rw [hshape, hshape2, isPrefixOf_append_cancel]
  exact append_rbrace_isPre_iff inner i t hinner hi

/-- Replacement passes over the text of a hole whose inner differs from
the pattern's. -/
theorem replaceAll_holeText_ne (i inner v t : List Char)
    (hib : i.contains rbrace = false) (hid : i.contains '$' = false)
    (hinner : inner.contains rbrace = false) (hne : i ≠ inner) :
    replaceAllChars (holeText i ++ t) (holeText inner) v
      = holeText i ++ replaceAllChars t (holeText inner) v := by
  have hpat : holeText inner ≠ [] := by simp [holeText, placeholderHead]
  have h0 : ¬ (holeText inner).isPrefixOf (holeText i ++ t) = true := by
    rw [holeText_isPre_iff i inner t hib hinner]
    exact fun he => hne he.symm
  have hshape : holeText i ++ t
      = '$' :: ((lbrace :: '.' :: 'P' :: 'V' :: 'C' :: '.' :: (i ++ [rbrace])) ++ t) := by
    rw [holeText, placeholderHead]
    simp
  have htail : (lbrace :: '.' :: 'P' :: 'V' :: 'C' :: '.' :: (i ++ [rbrace])).contains '$'
      = false := by
    simp only [List.contains_cons, Bool.or_eq_false_iff]
    refine ⟨by decide, by decide, by decide, by decide, by decide, by decide, ?_⟩
    rw [show i ++ [rbrace] = i ++ [rbrace] from rfl]
    rw [List.contains_eq_any_beq]
    simp only [List.any_append, Bool.or_eq_false_iff]
    constructor
    · rw [← List.contains_eq_any_beq]
      exact hid
    · decide
  rw [hshape]
  rw [replaceAll_neg _ _ _ _ hpat (by rw [← hshape]; exact h0)]
  rw [replaceAll_append_left _ _ _ _ hpat (by rw [holeText, placeholderHead]; rfl) htail]
  simp [holeText, placeholderHead]

/-- Every branch of `mkMatch` records the full placeholder text. -/
theorem mkMatch_full (i : List Char) : (mkMatch i).full = holeText i := by
  rw [mkMatch]
  by_cases h1 : ("labels.".data).isPrefixOf i
  · rw [if_pos h1]
  · rw [if_neg h1]
    by_cases h2 : ("annotations.".data).isPrefixOf i
    · rw [if_pos h2]
    · rw [if_neg h2]

/-- Every branch of `mkMatch` records the inner text as group 1. -/
theorem mkMatch_g1 (i : List Char) : (mkMatch i).g1 = i := by
  rw [mkMatch]
  by_cases h1 : ("labels.".data).isPrefixOf i
  · rw [if_pos h1]
  · rw [if_neg h1]
    by_cases h2 : ("annotations.".data).isPrefixOf i
    · rw [if_pos h2]
    · rw [if_neg h2]

/-- Rendering distributes over cons. -/
theorem renderRs_cons (sg : RSeg) (S : List RSeg) :
    renderRs (sg :: S) = renderR sg ++ renderRs S := rfl

/-- One `ReplaceAll` step on the rendered evolving string replaces
exactly the pending holes whose inner is the pattern's inner, turning
them into values. -/
theorem replaceAll_renderRs (inner v : List Char) (S : List RSeg)
    (hS : ∀ sg ∈ S, rsegOk sg = true)
    (hib : inner.contains rbrace = false) :
    replaceAllChars (renderRs S) (holeText inner) v
      = renderRs (S.map (fun sg => if sg = RSeg.hole inner then RSeg.val v else sg)) := by
  have hpat : holeText inner ≠ [] := by simp [holeText, placeholderHead]
  have hhead : (holeText inner).head? = some '$' := by rw [holeText, placeholderHead]; rfl
  induction S with
  | nil =>
    show replaceAllChars [] (holeText inner) v = renderRs []
    rw [replaceAll_nil _ _ hpat]
    rfl
  | cons sg S2 ih =>
    have hS2 : ∀ x ∈ S2, rsegOk x = true := fun x hx => hS x (List.mem_cons_of_mem _ hx)
    have hsg : rsegOk sg = true := hS sg (List.mem_cons_self _ _)
    rw [List.map_cons, renderRs_cons, renderRs_cons]
    cases sg with
    | lit c =>
      have hlc : ([c]).contains '$' = false := by
        simp only [rsegOk, bne_iff_ne, ne_eq] at hsg
        simp only [List.contains_cons, List.contains_nil, Bool.or_false,
          beq_eq_false_iff_ne, ne_eq]
        exact fun he => hsg he.symm
      rw [show renderR (RSeg.lit c) = [c] from rfl]
      rw [replaceAll_append_left [c] _ _ _ hpat hhead hlc, ih hS2]
      rw [if_neg (by simp)]
      rfl
    | val w =>
      have hw : w.contains '$' = false := by
        simp only [rsegOk, Bool.not_eq_true'] at hsg
        exact hsg
      rw [show renderR (RSeg.val w) = w from rfl]
      rw [replaceAll_append_left w _ _ _ hpat hhead hw, ih hS2]
      rw [if_neg (by simp)]
      rfl
    | hole i =>
      have hsplit : i.contains '$' = false ∧ i.contains rbrace = false := by
        simp only [rsegOk, Bool.and_eq_true, Bool.not_eq_true'] at hsg
        exact hsg
      by_cases he : i = inner
      · subst he
        rw [show renderR (RSeg.hole i) = holeText i from rfl]
        rw [replaceAll_pos _ _ _ hpat (by simp [holeText, placeholderHead])
          (isPrefixOf_append_self _ _)]
        rw [List.drop_left]
        rw [ih hS2]
        rw [if_pos rfl]
        rfl
      · rw [show renderR (RSeg.hole i) = holeText i from rfl]
        rw [replaceAll_holeText_ne i inner v _ hsplit.2 hsplit.1 hib he]
        rw [ih hS2]
        rw [if_neg (by simp [he])]
        rfl

/-- Folding the replacement over a match list whose inners cover every
pending hole yields the final rendering (every hole replaced once by its
value). -/
theorem fold_replace (meta : pvcMetadata) :
    ∀ (ms : List PvcMatch) (S : List RSeg),
      (∀ sg ∈ S, rsegOk sg = true) →
      (∀ m ∈ ms, ∃ i, m = mkMatch i ∧ i.contains rbrace = false) →
      (∀ m ∈ ms, (matchValue meta m).contains '$' = false) →
      (∀ i, RSeg.hole i ∈ S → mkMatch i ∈ ms) →
      ms.foldl (fun acc m => replaceAllChars acc m.full (matchValue meta m)) (renderRs S)
        = flatCat (S.map (finalR meta)) := by
  intro ms
  induction ms with
  | nil =>
    intro S hS _ _ hcov
    rw [List.foldl_nil]
    induction S with
    | nil => rfl
    | cons sg S2 ih2 =>
      rw [renderRs_cons, List.map_cons]
      rw [show flatCat (finalR meta sg :: S2.map (finalR meta))
        = finalR meta sg ++ flatCat (S2.map (finalR meta)) from rfl]
      rw [ih2 (fun x hx => hS x (List.mem_cons_of_mem _ hx))
        (fun i hi => hcov i (List.mem_cons_of_mem _ hi))]
      cases sg with
      | lit c => rfl
      | val w => rfl
      | hole i => exact absurd (hcov i (List.mem_cons_self _ _)) (by simp)
  | cons m ms2 ih =>
    intro S hS hms hvals hcov
    obtain ⟨im, hm, himb⟩ := hms m (List.mem_cons_self _ _)
    rw [List.foldl_cons]
    rw [show m.full = holeText im from by rw [hm, mkMatch_full]]
    rw [replaceAll_renderRs im (matchValue meta m) S hS himb]
    rw [ih (S.map (fun sg => if sg = RSeg.hole im then RSeg.val (matchValue meta m) else sg))
      ?hS2 (fun x hx => hms x (List.mem_cons_of_mem _ hx))
      (fun x hx => hvals x (List.mem_cons_of_mem _ hx)) ?hcov2]
    case hS2 =>
      intro sg hsg
      rw [List.mem_map] at hsg
      obtain ⟨sg0, hsg0, heq⟩ := hsg
      by_cases he : sg0 = RSeg.hole im
      · rw [if_pos he] at heq
        rw [← heq]
        simp only [rsegOk, Bool.not_eq_true']
        exact hvals m (List.mem_cons_self _ _)
      · rw [if_neg he] at heq
        rw [← heq]
        exact hS sg0 hsg0
    case hcov2 =>
      intro i hi
      rw [List.mem_map] at hi
      obtain ⟨sg0, hsg0, heq⟩ := hi
      by_cases he : sg0 = RSeg.hole im
      · rw [if_pos he] at heq
        cases heq
      · rw [if_neg he] at heq
        subst heq
        have hmem := hcov i hsg0
        rcases List.mem_cons.mp hmem with hh | hh
        · exfalso
          apply he
          have h2 : mkMatch i = mkMatch im := by rw [hh, hm]
          have h3 := mkMatch_g1 i
          rw [h2, mkMatch_g1] at h3
          rw [h3]
        · exact hh
    · congr 1
      rw [List.map_map]
      apply List.map_congr_left
      intro sg hsg
      by_cases he : sg = RSeg.hole im
      · rw [Function.comp_apply, if_pos he, he]
        rw [show finalR meta (RSeg.val (matchValue meta m)) = matchValue meta m from rfl]
        rw [show finalR meta (RSeg.hole im) = matchValue meta (mkMatch im) from rfl]
        rw [hm]
      · rw [Function.comp_apply, if_neg he]

/-- Counterexample to claim C5 as stated: when a label value itself
contains placeholder text matched later in the original template, the
resolver substitutes into that value as well, so the output differs from
the template with every placeholder replaced (once) by its corresponding
value. -/
theorem c5_counterexample :
    stringParser ⟨[("name", "v"), ("namespace", "d")], [("x", "$\x7b.PVC.name\x7d")], []⟩
        "$\x7b.PVC.labels.x\x7d$\x7b.PVC.name\x7d" ≠
      specSubstitute ⟨[("name", "v"), ("namespace", "d")], [("x", "$\x7b.PVC.name\x7d")], []⟩
        "$\x7b.PVC.labels.x\x7d$\x7b.PVC.name\x7d" := by decide

/-- Claim C5 (amended): for every template and metadata snapshot in which
no literal template character is `$`, no placeholder inner text contains
`$`, and no substituted value contains `$`, the resolver returns exactly
the template with every placeholder replaced by its corresponding value —
labels and annotations map keys, or the flat data map, with the empty
string for an absent key (single-pass substitution).  The resolver is a
pure function, so resolution is deterministic by construction. -/
theorem c5_amended (meta : pvcMetadata) (t : String)
    (h1 : (segsOf t.data).all segOk = true)
    (h2 : (findPVCMatches t.data).all
      (fun m => !(matchValue meta m).contains '$') = true) :
    stringParser meta t = specSubstitute meta t := by
  rw [stringParser, specSubstitute]
  congr 1
  rw [List.all_eq_true] at h1 h2
  have hS : ∀ sg ∈ (segsOf t.data).map (fun sg => match sg with
      | Seg.lit c => RSeg.lit c
      | Seg.hole i => RSeg.hole i), rsegOk sg = true := by
    intro sg hsg
    rw [List.mem_map] at hsg
    obtain ⟨sg0, hsg0, heq⟩ := hsg
    have hok := h1 sg0 hsg0
    cases sg0 with
    | lit c =>
      rw [← heq]
      simpa [segOk, rsegOk] using hok
    | hole i =>
      rw [← heq]
      simp only [rsegOk, Bool.and_eq_true]
      constructor
      · simpa [segOk, rsegOk] using hok
      · simp only [Bool.not_eq_true']
        exact segsOf_hole_no_brace t.data i hsg0
  have hms : ∀ m ∈ findPVCMatches t.data,
      ∃ i, m = mkMatch i ∧ i.contains rbrace = false := by
    intro m hm
    rw [findPVCMatches, List.mem_filterMap] at hm
    obtain ⟨sg, hsg, hm2⟩ := hm
    cases sg with
    | lit c => exact absurd hm2 (by simp)
    | hole i =>
      refine ⟨i, ?_, segsOf_hole_no_brace t.data i hsg⟩
      have : some (mkMatch i) = some m := hm2
      cases this
      rfl
  have hvals : ∀ m ∈ findPVCMatches t.data,
      (matchValue meta m).contains '$' = false := by
    intro m hm
    simpa using h2 m hm
  have hcov : ∀ i, RSeg.hole i ∈ (segsOf t.data).map (fun sg => match sg with
      | Seg.lit c => RSeg.lit c
      | Seg.hole i => RSeg.hole i) → mkMatch i ∈ findPVCMatches t.data := by
    intro i hi
    rw [List.mem_map] at hi
    obtain ⟨sg0, hsg0, heq⟩ := hi
    rw [findPVCMatches, List.mem_filterMap]
    refine ⟨sg0, hsg0, ?_⟩
    cases sg0 with
    | lit c => exact absurd heq (by simp)
    | hole j =>
      have : RSeg.hole j = RSeg.hole i := heq
      cases this
      rfl
  have hmain := fold_replace meta (findPVCMatches t.data)
    ((segsOf t.data).map (fun sg => match sg with
      | Seg.lit c => RSeg.lit c
      | Seg.hole i => RSeg.hole i)) hS hms hvals hcov
  have hlift : renderRs ((segsOf t.data).map (fun sg => match sg with
      | Seg.lit c => RSeg.lit c
      | Seg.hole i => RSeg.hole i)) = t.data := by
    rw [renderRs, List.map_map]
    have hcomp : (renderR ∘ fun sg => match sg with
        | Seg.lit c => RSeg.lit c
        | Seg.hole i => RSeg.hole i) = renderSeg := by
      funext sg
      cases sg with
      | lit c => rfl
      | hole i => rfl
    rw [hcomp, segsOf_render]
  rw [hlift] at hmain
  rw [hmain, specSubstChars, List.map_map]
  congr 1
  apply List.map_congr_left
  intro sg hsg
  cases sg with
  | lit c => rfl
  | hole i => rfl

/-- Witness for C5 (amended) at a concrete dollar-free template and
metadata: both sides evaluate to "default-data". -/
theorem c5_amended_witness :
    stringParser ⟨[("name", "data"), ("namespace", "default")], [], []⟩
        "$\x7b.PVC.namespace\x7d-$\x7b.PVC.name\x7d" =
      specSubstitute ⟨[("name", "data"), ("namespace", "default")], [], []⟩
        "$\x7b.PVC.namespace\x7d-$\x7b.PVC.name\x7d" :=
  c5_amended ⟨[("name", "data"), ("namespace", "default")], [], []⟩
    "$\x7b.PVC.namespace\x7d-$\x7b.PVC.name\x7d" (by decide) (by decide)

/-- Claim C10: substitution is not single-pass — the resolver collects
the matches of the original template and then replaces each match's text
throughout the evolving string, so a label value that itself contains the
text of a later match is substituted again: here the label value
`${.PVC.name}` is itself replaced, giving "n-n", while single-pass
substitution of the original occurrences gives "${.PVC.name}-n". -/
theorem c10_not_single_pass :
    stringParser ⟨[("name", "n"), ("namespace", "d")], [("a", "$\x7b.PVC.name\x7d")], []⟩
        "$\x7b.PVC.labels.a\x7d-$\x7b.PVC.name\x7d" = "n-n" ∧
    specSubstitute ⟨[("name", "n"), ("namespace", "d")], [("a", "$\x7b.PVC.name\x7d")], []⟩
        "$\x7b.PVC.labels.a\x7d-$\x7b.PVC.name\x7d" = "$\x7b.PVC.name\x7d-n" ∧
    stringParser ⟨[("name", "n"), ("namespace", "d")], [("a", "$\x7b.PVC.name\x7d")], []⟩
        "$\x7b.PVC.labels.a\x7d-$\x7b.PVC.name\x7d" ≠
      specSubstitute ⟨[("name", "n"), ("namespace", "d")], [("a", "$\x7b.PVC.name\x7d")], []⟩
        "$\x7b.PVC.labels.a\x7d-$\x7b.PVC.name\x7d" := by decide
